import Mathlib

/-!
Verification of the chunked artifact fan-out engine of `content-extractor-pro`.

Strings are modelled as `List Char`, byte strings as `List Nat`.  Python loops
are modelled with explicit fuel; a separate lemma shows the fuel is irrelevant
once it is at least the number of loop iterations, which is the shallow
embedding of the termination of the loop.
-/

namespace ContentExtractor

/-! ## `split_text_on_newlines` (src/artifacts/chunking.py)

The Python loop keeps a `cursor` and in each iteration computes
`limit = min(length, cursor + max_chars)`; when `limit < length` it looks for
the last `"\n"` in `text[cursor:limit]` (`str.rfind`) and, when its index is
`> cursor + max_chars * 0.5`, moves `limit` to just after that newline.  The
emitted segment is `text[cursor:limit]` (with a fallback re-slice when the
segment is empty, which also leaves the cursor in place).  The float test
`newline_break > cursor + max_chars * 0.5` is embedded as the exact integer
comparison `2 * nb > 2 * cursor + max_chars`. -/

/-- Scan indices `start + k - 1, …, start` (downwards) for a newline; the first
hit is the rightmost newline among `start, …, start + k - 1`. -/
def rlastNewline (text : List Char) (start : Nat) : Nat → Option Nat
  | 0 => none
  | k + 1 =>
      if text.get? (start + k) = some '\n' then some (start + k)
      else rlastNewline text start k

/-- `text.rfind "\n" [start:stop]` from Python: rightmost index `i` with
`start ≤ i < stop` and `text[i] = '\n'` (indices past the end never match
because `get?` returns `none` there). -/
def rfindNewline (text : List Char) (start stop : Nat) : Option Nat :=
  rlastNewline text start (stop - start)

/-- The value of `limit` at the end of one body of the Python `while` loop:
the hard window end `min(length, cursor + max_chars)`, moved to just after the
last newline of the window when that newline sits past the midpoint. -/
def nextLimit (text : List Char) (maxChars cursor : Nat) : Nat :=
  let limit := min text.length (cursor + maxChars)
  if limit < text.length then
    match rfindNewline text cursor limit with
    | some nb => if 2 * nb > 2 * cursor + maxChars then nb + 1 else limit
    | none => limit
  else limit

/-- The segment emitted by one loop iteration: `text[cursor:limit]`, with the
Python fallback `text[cursor:cursor + max_chars]` when that slice is empty. -/
def segmentAt (text : List Char) (maxChars cursor : Nat) : List Char :=
  let seg := (text.drop cursor).take (nextLimit text maxChars cursor - cursor)
  if seg = [] then (text.drop cursor).take maxChars else seg

/-- The `while cursor < length` loop, with explicit fuel. -/
def splitGo (text : List Char) (maxChars : Nat) : Nat → Nat → List (List Char)
  | 0, _ => []
  | fuel + 1, cursor =>
      if cursor < text.length then
        segmentAt text maxChars cursor ::
          splitGo text maxChars fuel (nextLimit text maxChars cursor)
      else []

/-- `split_text_on_newlines(text, max_chars)` from src/artifacts/chunking.py:
empty text yields `[""]`, otherwise the chunking loop runs (its fuel
`text.length` is enough for every positive `max_chars`). -/
def split_text_on_newlines (text : List Char) (maxChars : Nat) :
    List (List Char) :=
  if text.length = 0 then [[]]
  else splitGo text maxChars text.length 0

/-! ### Basic facts about the newline search -/

theorem rlastNewline_some {text : List Char} {start k nb : Nat}
    (h : rlastNewline text start k = some nb) :
    start ≤ nb ∧ nb < start + k ∧ text.get? nb = some '\n' ∧
      ∀ j, nb < j → j < start + k → text.get? j ≠ some '\n' := by
  induction k with
  | zero => simp [rlastNewline] at h
  | succ k ih =>
      rw [rlastNewline] at h
      by_cases hc : text.get? (start + k) = some '\n'
      · rw [if_pos hc] at h
        injection h with h
        subst h
        refine ⟨Nat.le_add_right _ _, by omega, hc, ?_⟩
        intro j hj1 hj2
        omega
      · rw [if_neg hc] at h
        obtain ⟨h1, h2, h3, h4⟩ := ih h
        refine ⟨h1, by omega, h3, ?_⟩
        intro j hj1 hj2
        by_cases hjk : j = start + k
        · subst hjk; exact hc
        · exact h4 j hj1 (by omega)

theorem rlastNewline_none {text : List Char} {start k : Nat}
    (h : rlastNewline text start k = none) :
    ∀ j, start ≤ j → j < start + k → text.get? j ≠ some '\n' := by
  induction k with
  | zero => intro j h1 h2; omega
  | succ k ih =>
      rw [rlastNewline] at h
      by_cases hc : text.get? (start + k) = some '\n'
      · rw [if_pos hc] at h
        exact absurd h (by simp)
      · rw [if_neg hc] at h
        intro j hj1 hj2
        by_cases hjk : j = start + k
        · subst hjk; exact hc
        · exact ih h j hj1 (by omega)

theorem rfindNewline_some {text : List Char} {start stop nb : Nat}
    (hss : start ≤ stop) (h : rfindNewline text start stop = some nb) :
    start ≤ nb ∧ nb < stop ∧ text.get? nb = some '\n' ∧
      ∀ j, nb < j → j < stop → text.get? j ≠ some '\n' := by
  obtain ⟨h1, h2, h3, h4⟩ := rlastNewline_some h
  have he : start + (stop - start) = stop := by omega
  rw [he] at h2 h4
  exact ⟨h1, h2, h3, h4⟩

theorem rfindNewline_none {text : List Char} {start stop : Nat}
    (h : rfindNewline text start stop = none) :
    ∀ j, start ≤ j → j < stop → text.get? j ≠ some '\n' := by
  intro j hj1 hj2
  exact rlastNewline_none h j hj1 (by omega)

/-! ### Bounds on the break point -/

theorem nextLimit_le_window (text : List Char) (maxChars cursor : Nat) :
    nextLimit text maxChars cursor ≤ cursor + maxChars := by
  unfold nextLimit
  set limit := min text.length (cursor + maxChars) with hlim
  have hlim2 : limit ≤ cursor + maxChars := Nat.min_le_right _ _
  by_cases hl : limit < text.length
  · simp only [if_pos hl]
    cases hfind : rfindNewline text cursor limit with
    | none => simpa using hlim2
    | some nb =>
        have hcs : cursor ≤ limit := by
          have := Nat.min_le_left text.length (cursor + maxChars)
          omega
        obtain ⟨h1, h2, h3, h4⟩ := rfindNewline_some hcs hfind
        by_cases hmid : 2 * nb > 2 * cursor + maxChars
        · simp only [if_pos hmid]; omega
        · simp only [if_neg hmid]; simpa using hlim2
  · simp only [if_neg hl]; simpa using hlim2

theorem nextLimit_le_length (text : List Char) (maxChars cursor : Nat) :
    nextLimit text maxChars cursor ≤ text.length := by
  unfold nextLimit
  set limit := min text.length (cursor + maxChars) with hlim
  have hlim1 : limit ≤ text.length := Nat.min_le_left _ _
  by_cases hl : limit < text.length
  · simp only [if_pos hl]
    cases hfind : rfindNewline text cursor limit with
    | none => simpa using hlim1
    | some nb =>
        have hcs : cursor ≤ limit := by
          have := Nat.min_le_left text.length (cursor + maxChars)
          omega
        obtain ⟨h1, h2, h3, h4⟩ := rfindNewline_some hcs hfind
        by_cases hmid : 2 * nb > 2 * cursor + maxChars
        · simp only [if_pos hmid]; omega
        · simp only [if_neg hmid]; simpa using hlim1
  · simp only [if_neg hl]; simpa using hlim1

theorem lt_nextLimit (text : List Char) {maxChars cursor : Nat}
    (hc : cursor < text.length) (hm : 1 ≤ maxChars) :
    cursor < nextLimit text maxChars cursor := by
  unfold nextLimit
  set limit := min text.length (cursor + maxChars) with hlim
  have hcl : cursor < limit := by
    have h1 : cursor + 1 ≤ text.length := hc
    have h2 : cursor + 1 ≤ cursor + maxChars := by omega
    exact lt_min h1 h2
  by_cases hl : limit < text.length
  · simp only [if_pos hl]
    cases hfind : rfindNewline text cursor limit with
    | none => simpa using hcl
    | some nb =>
        obtain ⟨h1, h2, h3, h4⟩ := rfindNewline_some (Nat.le_of_lt hcl) hfind
        by_cases hmid : 2 * nb > 2 * cursor + maxChars
        · simp only [if_pos hmid]; omega
        · simp only [if_neg hmid]; simpa using hcl
  · simp only [if_neg hl]; simpa using hcl

theorem segmentAt_eq (text : List Char) {maxChars cursor : Nat}
    (hc : cursor < text.length) (hm : 1 ≤ maxChars) :
    segmentAt text maxChars cursor =
      (text.drop cursor).take (nextLimit text maxChars cursor - cursor) := by
  unfold segmentAt
  have hlt := lt_nextLimit text hc hm
  have hne : (text.drop cursor).take
      (nextLimit text maxChars cursor - cursor) ≠ [] := by
    intro hnil
    have h0 := congrArg List.length hnil
    rw [List.length_take, List.length_drop] at h0
    simp only [List.length_nil] at h0
    omega
  simp only [if_neg hne]

theorem segmentAt_ne_nil (text : List Char) {maxChars cursor : Nat}
    (hc : cursor < text.length) (hm : 1 ≤ maxChars) :
    segmentAt text maxChars cursor ≠ [] := by
  rw [segmentAt_eq text hc hm]
  have hlt := lt_nextLimit text hc hm
  intro hnil
  have h0 := congrArg List.length hnil
  rw [List.length_take, List.length_drop] at h0
  simp only [List.length_nil] at h0
  omega

theorem segmentAt_length_le (text : List Char) {maxChars cursor : Nat}
    (hc : cursor < text.length) (hm : 1 ≤ maxChars) :
    (segmentAt text maxChars cursor).length ≤ maxChars := by
  rw [segmentAt_eq text hc hm]
  rw [List.length_take]
  have := nextLimit_le_window text maxChars cursor
  omega

/-! ### The chunking loop: concatenation, chunk sizes, fuel independence -/

theorem splitGo_join (text : List Char) {maxChars : Nat} (hm : 1 ≤ maxChars) :
    ∀ fuel cursor, text.length ≤ cursor + fuel →
      (splitGo text maxChars fuel cursor).flatten = text.drop cursor := by
  intro fuel
  induction fuel with
  | zero =>
      intro cursor hfc
      rw [splitGo]
      have : text.drop cursor = [] := List.drop_eq_nil_of_le (by omega)
      simp [this]
  | succ fuel ih =>
      intro cursor hfc
      rw [splitGo]
      by_cases hc : cursor < text.length
      · rw [if_pos hc]
        set nl := nextLimit text maxChars cursor with hnl
        have hlt : cursor < nl := lt_nextLimit text hc hm
        have hlen : nl ≤ text.length := nextLimit_le_length text maxChars cursor
        rw [List.flatten, segmentAt_eq text hc hm]
        rw [ih nl (by omega)]
        have hdd : text.drop nl = (text.drop cursor).drop (nl - cursor) := by
          rw [List.drop_drop]
          congr 1
          omega
        rw [hdd]
        exact List.take_append_drop _ _
      · rw [if_neg hc]
        have : text.drop cursor = [] := List.drop_eq_nil_of_le (by omega)
        simp [this]

theorem splitGo_lengths (text : List Char) {maxChars : Nat} (hm : 1 ≤ maxChars) :
    ∀ fuel cursor c, c ∈ splitGo text maxChars fuel cursor →
      c.length ≤ maxChars := by
  intro fuel
  induction fuel with
  | zero => intro cursor c hmem; simp [splitGo] at hmem
  | succ fuel ih =>
      intro cursor c hmem
      rw [splitGo] at hmem
      by_cases hc : cursor < text.length
      · rw [if_pos hc] at hmem
        rcases List.mem_cons.mp hmem with hhd | htl
        · subst hhd; exact segmentAt_length_le text hc hm
        · exact ih _ c htl
      · rw [if_neg hc] at hmem; simp at hmem

theorem splitGo_fuel_indep (text : List Char) {maxChars : Nat}
    (hm : 1 ≤ maxChars) :
    ∀ fuel₁ fuel₂ cursor, text.length ≤ cursor + fuel₁ →
      text.length ≤ cursor + fuel₂ →
      splitGo text maxChars fuel₁ cursor = splitGo text maxChars fuel₂ cursor := by
  intro fuel₁
  induction fuel₁ with
  | zero =>
      intro fuel₂ cursor h1 h2
      have hc : ¬ cursor < text.length := by omega
      cases fuel₂ with
      | zero => rfl
      | succ fuel₂ => rw [splitGo, splitGo, if_neg hc]
  | succ fuel₁ ih =>
      intro fuel₂ cursor h1 h2
      by_cases hc : cursor < text.length
      · cases fuel₂ with
        | zero => omega
        | succ fuel₂ =>
            rw [splitGo, splitGo, if_pos hc, if_pos hc]
            have hlt : cursor < nextLimit text maxChars cursor :=
              lt_nextLimit text hc hm
            rw [ih fuel₂ (nextLimit text maxChars cursor) (by omega) (by omega)]
      · cases fuel₂ with
        | zero => rw [splitGo, splitGo, if_neg hc]
        | succ fuel₂ => rw [splitGo, splitGo, if_neg hc, if_neg hc]

theorem split_text_on_newlines_ne_nil (text : List Char) (maxChars : Nat) :
    split_text_on_newlines text maxChars ≠ [] := by
  unfold split_text_on_newlines
  by_cases h : text.length = 0
  · simp [h]
  · rw [if_neg h]
    cases hl : text.length with
    | zero => omega
    | succ n =>
        rw [splitGo, if_pos (by omega)]
        simp

/-- The declarative statement that `nb` is the rightmost newline of the window
`[start, stop)` of `text`. -/
def IsLastNewline (text : List Char) (start stop nb : Nat) : Prop :=
  start ≤ nb ∧ nb < stop ∧ text.get? nb = some '\n' ∧
    ∀ j, nb < j → j < stop → text.get? j ≠ some '\n'

theorem isLastNewline_unique {text : List Char} {start stop a b : Nat}
    (ha : IsLastNewline text start stop a)
    (hb : IsLastNewline text start stop b) : a = b := by
  obtain ⟨ha1, ha2, ha3, ha4⟩ := ha
  obtain ⟨hb1, hb2, hb3, hb4⟩ := hb
  rcases Nat.lt_trichotomy a b with h | h | h
  · exact absurd hb3 (ha4 b h hb2)
  · exact h
  · exact absurd ha3 (hb4 a h ha2)

/-- Inside the document, `nextLimit` follows the midpoint rule of the claim. -/
theorem nextLimit_break_rule (text : List Char) (maxChars cursor : Nat)
    (hw : cursor + maxChars < text.length) :
    (∀ nb, IsLastNewline text cursor (cursor + maxChars) nb →
        nextLimit text maxChars cursor =
          if 2 * nb > 2 * cursor + maxChars then nb + 1
          else cursor + maxChars) ∧
      ((∀ nb, ¬ IsLastNewline text cursor (cursor + maxChars) nb) →
        nextLimit text maxChars cursor = cursor + maxChars) := by
  have hlim : min text.length (cursor + maxChars) = cursor + maxChars :=
    Nat.min_eq_right (by omega)
  have hlt : min text.length (cursor + maxChars) < text.length := by omega
  constructor
  · intro nb hnb
    unfold nextLimit
    rw [hlim] at hlt ⊢
    rw [if_pos hlt]
    cases hfind : rfindNewline text cursor (cursor + maxChars) with
    | none =>
        exfalso
        obtain ⟨h1, h2, h3, _⟩ := hnb
        exact rfindNewline_none hfind nb h1 h2 h3
    | some nb' =>
        have hnb' : IsLastNewline text cursor (cursor + maxChars) nb' :=
          rfindNewline_some (by omega) hfind
        rw [isLastNewline_unique hnb hnb']
  · intro hnone
    unfold nextLimit
    rw [hlim] at hlt ⊢
    rw [if_pos hlt]
    cases hfind : rfindNewline text cursor (cursor + maxChars) with
    | none => rfl
    | some nb' =>
        exact absurd (rfindNewline_some (by omega) hfind) (hnone nb')

/-- C1: for non-empty text and positive limit, `split_text_on_newlines`
returns at least one chunk, every chunk is at most `maxChars` long, the
chunks concatenate back to the text, and mid-document window breaks follow
the last-newline-past-the-midpoint rule (the emitted chunk ends just after
that newline), else the hard cut at `cursor + maxChars`. -/
theorem split_text_on_newlines_correct (text : List Char) (maxChars : Nat)
    (htext : text ≠ []) (hm : 1 ≤ maxChars) :
    1 ≤ (split_text_on_newlines text maxChars).length ∧
      (∀ c ∈ split_text_on_newlines text maxChars, c.length ≤ maxChars) ∧
      (split_text_on_newlines text maxChars).flatten = text ∧
      ∀ cursor, cursor + maxChars < text.length →
        (∀ nb, IsLastNewline text cursor (cursor + maxChars) nb →
            nextLimit text maxChars cursor =
              if 2 * nb > 2 * cursor + maxChars then nb + 1
              else cursor + maxChars) ∧
          ((∀ nb, ¬ IsLastNewline text cursor (cursor + maxChars) nb) →
            nextLimit text maxChars cursor = cursor + maxChars) := by
  have hlen : text.length ≠ 0 := by
    intro h0
    exact htext (List.eq_nil_of_length_eq_zero h0)
  refine ⟨?_, ?_, ?_, ?_⟩
  · have := split_text_on_newlines_ne_nil text maxChars
    cases h : split_text_on_newlines text maxChars with
    | nil => exact absurd h this
    | cons a l => simp
  · intro c hc
    unfold split_text_on_newlines at hc
    rw [if_neg hlen] at hc
    exact splitGo_lengths text hm _ _ c hc
  · unfold split_text_on_newlines
    rw [if_neg hlen]
    have := splitGo_join text hm text.length 0 (by omega)
    simpa using this
  · intro cursor hw
    exact nextLimit_break_rule text maxChars cursor hw

/-- Witness for C1 on the concrete text `"ab\ncd\nef"` with limit 4. -/
theorem split_text_on_newlines_correct_witness :
    (['a', 'b', '\n', 'c', 'd', '\n', 'e', 'f'] : List Char) ≠ [] ∧
      1 ≤ (4 : Nat) ∧
      (split_text_on_newlines ['a', 'b', '\n', 'c', 'd', '\n', 'e', 'f'] 4).flatten
        = ['a', 'b', '\n', 'c', 'd', '\n', 'e', 'f'] :=
  ⟨by decide, by decide,
    (split_text_on_newlines_correct ['a', 'b', '\n', 'c', 'd', '\n', 'e', 'f'] 4
      (by decide) (by decide)).2.2.1⟩

/-- C10: with `max_chars ≥ 1` every loop iteration strictly advances the
cursor (each emitted segment is non-empty), so the loop terminates: the
fuel-indexed loop is independent of the fuel once the fuel covers the
remaining text. -/
theorem split_text_on_newlines_terminates (text : List Char) (maxChars : Nat)
    (hm : 1 ≤ maxChars) :
    (∀ cursor, cursor < text.length →
        cursor < nextLimit text maxChars cursor ∧
          segmentAt text maxChars cursor ≠ []) ∧
      ∀ fuel, text.length ≤ fuel →
        splitGo text maxChars fuel 0 = splitGo text maxChars text.length 0 := by
  constructor
  · intro cursor hc
    exact ⟨lt_nextLimit text hc hm, segmentAt_ne_nil text hc hm⟩
  · intro fuel hfuel
    exact splitGo_fuel_indep text hm fuel text.length 0 (by omega) (by omega)

/-- Witness for C10 at the concrete text `"xy"` with limit 1 and fuel 7. -/
theorem split_text_on_newlines_terminates_witness :
    1 ≤ (1 : Nat) ∧
      splitGo ['x', 'y'] 1 7 0 = splitGo ['x', 'y'] 1 (['x', 'y'] : List Char).length 0 :=
  ⟨by decide,
    (split_text_on_newlines_terminates ['x', 'y'] 1 (by decide)).2 7 (by decide)⟩

/-! ## Filesystem model and `write_if_changed`
(src/pipelines/common/checksum.py)

A file store maps names to file data (content bytes plus the mtime the file
got when it was last (re)written).  A monotone clock supplies mtimes, so a
rewrite is observable through the mtime even when the bytes are unchanged.
`write_if_changed` compares `sha256_bytes(data)` against `sha256_file(path)`
(`none` for a missing file) and only writes on a mismatch; the hash is a
parameter `h`, since only the fact that equal bytes yield equal hashes
matters here. -/

structure FileData where
  bytes : List Nat
  mtime : Nat
deriving DecidableEq

structure FS (κ : Type) where
  files : κ → Option FileData
  clock : Nat

/-- An unconditional file write (Python `path.write_text(...)` /
`path.open("wb")`): the file gets the new bytes and a fresh mtime. -/
def FS.writeFile {κ : Type} [DecidableEq κ] (fs : FS κ) (name : κ)
    (data : List Nat) : FS κ :=
  { files := fun n => if n = name then some ⟨data, fs.clock⟩ else fs.files n,
    clock := fs.clock + 1 }

/-- `write_if_changed(path, data)`: `false` (no write) when the stored file's
hash equals the hash of `data`, otherwise write and report `true`. -/
def write_if_changed {κ : Type} [DecidableEq κ] (h : List Nat → List Nat)
    (fs : FS κ) (name : κ) (data : List Nat) : Bool × FS κ :=
  if (fs.files name).map (fun fd => h fd.bytes) = some (h data) then (false, fs)
  else (true, fs.writeFile name data)

/-- C3: `write_if_changed` is idempotent — the second of two identical calls
returns `false`, leaves the whole store (hence the file) untouched, and in
particular preserves the file's mtime. -/
theorem write_if_changed_idempotent {κ : Type} [DecidableEq κ]
    (h : List Nat → List Nat) (fs : FS κ) (name : κ) (data : List Nat) :
    (write_if_changed h (write_if_changed h fs name data).2 name data).1
        = false ∧
      (write_if_changed h (write_if_changed h fs name data).2 name data).2
        = (write_if_changed h fs name data).2 ∧
      (((write_if_changed h (write_if_changed h fs name data).2 name data).2.files
            name).map FileData.mtime)
        = (((write_if_changed h fs name data).2.files name).map FileData.mtime) := by
  unfold write_if_changed
  by_cases hc : (fs.files name).map (fun fd => h fd.bytes) = some (h data)
  · rw [if_pos hc]
    simp only
    rw [if_pos hc]
    exact ⟨rfl, rfl, rfl⟩
  · rw [if_neg hc]
    simp only
    have hfile : ((fs.writeFile name data).files name).map (fun fd => h fd.bytes)
        = some (h data) := by
      unfold FS.writeFile
      simp
    rw [if_pos hfile]
    exact ⟨rfl, rfl, rfl⟩

/-! ## The two chunk writers

`write_chunks` (src/artifacts/chunking.py) persists chunk payloads with the
shared `{base}_part_{i}_of_{total}{ext}` naming convention using plain
`Path.write_text` — an unconditional write.  `_write_chunks`
(src/pipelines/common/splitters.py) uses `write_if_changed` for each chunk,
pads an empty payload list to a single empty payload, and computes
`total_parts = len(payloads) or 1`.

File names are modelled structurally: the flat string
`{base}_part_{i}_of_{total}{ext}` determines and is determined by the
quadruple below (for the extensions in use, which begin with a dot); the
string-level parsing side of this is proved with `parse_chunk_indices`. -/

structure ArtifactName where
  base : String
  part : Nat
  total : Nat
  ext : String
deriving DecidableEq

/-- The write loop of `write_chunks` (src/artifacts/chunking.py), starting at
part index `i`: every payload is written unconditionally. -/
def writeChunksGo (base ext : String) (total : Nat) :
    FS ArtifactName → Nat → List (List Nat) → FS ArtifactName
  | fs, _, [] => fs
  | fs, i, p :: ps =>
      writeChunksGo base ext total
        (fs.writeFile ⟨base, i, total, ext⟩ p) (i + 1) ps

/-- `write_chunks` (src/artifacts/chunking.py): `total = len(payloads)`,
parts numbered from 1, each written with `write_text`. -/
def write_chunks (fs : FS ArtifactName) (base ext : String)
    (payloads : List (List Nat)) : FS ArtifactName :=
  writeChunksGo base ext payloads.length fs 1 payloads

/-- The write loop of `_write_chunks` (src/pipelines/common/splitters.py),
starting at part index `i`: every payload goes through `write_if_changed`. -/
def splittersWriteChunksGo (h : List Nat → List Nat) (base ext : String)
    (total : Nat) :
    FS ArtifactName → Nat → List (List Nat) → FS ArtifactName
  | fs, _, [] => fs
  | fs, i, p :: ps =>
      splittersWriteChunksGo h base ext total
        (write_if_changed h fs ⟨base, i, total, ext⟩ p).2 (i + 1) ps

/-- `_write_chunks` (src/pipelines/common/splitters.py):
`total_parts = len(payload_list) or 1`, iterating `payload_list or [b""]`,
each chunk written via `write_if_changed`. -/
def _write_chunks (h : List Nat → List Nat) (fs : FS ArtifactName)
    (base ext : String) (payloads : List (List Nat)) : FS ArtifactName :=
  let total := if payloads.length = 0 then 1 else payloads.length
  let payloadList := if payloads = [] then [[]] else payloads
  splittersWriteChunksGo h base ext total fs 1 payloadList

/-! ### Facts about the `_write_chunks` loop -/

/-- Names outside the written range (different base, extension, total, or a
part index below the loop counter) are untouched by the loop. -/
theorem splittersWriteChunksGo_frame (h : List Nat → List Nat)
    (base ext : String) (total : Nat) :
    ∀ (ps : List (List Nat)) (fs : FS ArtifactName) (i : Nat)
      (name : ArtifactName),
      (name.base ≠ base ∨ name.ext ≠ ext ∨ name.total ≠ total ∨
        name.part < i ∨ i + ps.length ≤ name.part) →
      (splittersWriteChunksGo h base ext total fs i ps).files name
        = fs.files name := by
  intro ps
  induction ps with
  | nil => intro fs i name _; rfl
  | cons q ps ih =>
      intro fs i name hname
      rw [splittersWriteChunksGo]
      have hne : name ≠ ⟨base, i, total, ext⟩ := by
        intro he
        subst he
        simp only [List.length_cons] at hname
        rcases hname with h1 | h1 | h1 | h1 | h1 <;> simp_all
      have hstep :
          ((write_if_changed h fs ⟨base, i, total, ext⟩ q).2).files name
            = fs.files name := by
        unfold write_if_changed
        by_cases hc : (fs.files ⟨base, i, total, ext⟩).map (fun fd => h fd.bytes)
            = some (h q)
        · rw [if_pos hc]
        · rw [if_neg hc]
          unfold FS.writeFile
          simp only
          rw [if_neg hne]
      rw [ih _ (i + 1) name ?_, hstep]
      simp only [List.length_cons] at hname
      rcases hname with h1 | h1 | h1 | h1 | h1
      · exact Or.inl h1
      · exact Or.inr (Or.inl h1)
      · exact Or.inr (Or.inr (Or.inl h1))
      · exact Or.inr (Or.inr (Or.inr (Or.inl (by omega))))
      · exact Or.inr (Or.inr (Or.inr (Or.inr (by omega))))

/-- After the loop, the chunk file for offset `k` stores bytes whose hash is
the hash of payload `k` (it was either just written, or already there with an
identical hash so the write was skipped). -/
theorem splittersWriteChunksGo_hash (h : List Nat → List Nat)
    (base ext : String) (total : Nat) :
    ∀ (ps : List (List Nat)) (fs : FS ArtifactName) (i k : Nat)
      (p : List Nat), ps.get? k = some p →
      (((splittersWriteChunksGo h base ext total fs i ps).files
          ⟨base, i + k, total, ext⟩).map (fun fd => h fd.bytes))
        = some (h p) := by
  intro ps
  induction ps with
  | nil => intro fs i k p hk; simp at hk
  | cons q ps ih =>
      intro fs i k p hk
      cases k with
      | zero =>
          simp only [List.get?_cons_zero, Option.some.injEq] at hk
          subst hk
          rw [splittersWriteChunksGo]
          rw [splittersWriteChunksGo_frame h base ext total ps _ (i + 1)
            ⟨base, i + 0, total, ext⟩ (by simp)]
          unfold write_if_changed
          by_cases hc : (fs.files ⟨base, i, total, ext⟩).map
              (fun fd => h fd.bytes) = some (h q)
          · rw [if_pos hc]
            simpa using hc
          · rw [if_neg hc]
            unfold FS.writeFile
            simp
      | succ k =>
          simp only [List.get?_cons_succ] at hk
          rw [splittersWriteChunksGo]
          have harith : i + (k + 1) = i + 1 + k := by omega
          rw [harith]
          exact ih ((write_if_changed h fs ⟨base, i, total, ext⟩ q).2)
            (i + 1) k p hk

/-- If every chunk file already stores bytes hashing like its payload, the
loop writes nothing at all: the store is returned unchanged. -/
theorem splittersWriteChunksGo_noop (h : List Nat → List Nat)
    (base ext : String) (total : Nat) :
    ∀ (ps : List (List Nat)) (fs : FS ArtifactName) (i : Nat),
      (∀ k p, ps.get? k = some p →
        ((fs.files ⟨base, i + k, total, ext⟩).map (fun fd => h fd.bytes))
          = some (h p)) →
      splittersWriteChunksGo h base ext total fs i ps = fs := by
  intro ps
  induction ps with
  | nil => intro fs i _; rfl
  | cons q ps ih =>
      intro fs i hinv
      rw [splittersWriteChunksGo]
      have h0 : (fs.files ⟨base, i, total, ext⟩).map (fun fd => h fd.bytes)
          = some (h q) := by
        have := hinv 0 q (by simp)
        simpa using this
      have hskip : write_if_changed h fs ⟨base, i, total, ext⟩ q = (false, fs) := by
        unfold write_if_changed
        rw [if_pos h0]
      rw [hskip]
      exact ih fs (i + 1) (fun k p hk => by
        have := hinv (k + 1) p (by simpa using hk)
        have harith : i + (k + 1) = i + 1 + k := by omega
        rw [harith] at this
        exact this)

/-- C4 counterexample: the chunk writer shared by the format generators
(`write_chunks` in src/artifacts/chunking.py, used by
src/artifacts/formats/html.py `generate`) does not go through the idempotent
writer.  Regenerating the single chunk `"h"` of `chat.html` with byte-identical
content leaves the same bytes on disk but bumps the file's mtime: the claim
fails at this input. -/
theorem write_chunks_rewrites_identical_chunk :
    (((write_chunks (write_chunks ⟨fun _ => none, 0⟩ "chat" ".html" [[104]])
          "chat" ".html" [[104]]).files ⟨"chat", 1, 1, ".html"⟩).map
          FileData.bytes
        = ((write_chunks ⟨fun _ => none, 0⟩ "chat" ".html" [[104]]).files
            ⟨"chat", 1, 1, ".html"⟩).map FileData.bytes) ∧
      (((write_chunks (write_chunks ⟨fun _ => none, 0⟩ "chat" ".html" [[104]])
          "chat" ".html" [[104]]).files ⟨"chat", 1, 1, ".html"⟩).map
          FileData.mtime
        ≠ ((write_chunks ⟨fun _ => none, 0⟩ "chat" ".html" [[104]]).files
            ⟨"chat", 1, 1, ".html"⟩).map FileData.mtime) := by
  constructor
  · rfl
  · decide

/-- C4 amended: only the pipelines' shared splitter writer (`_write_chunks` in
src/pipelines/common/splitters.py) routes every chunk file through
`write_if_changed`; re-running it with byte-identical payloads performs no
write at all — the store, hence every chunk file and its mtime, is returned
unchanged.  (The artifacts-package `write_chunks` writes unconditionally, as
the counterexample shows.) -/
theorem _write_chunks_idempotent (h : List Nat → List Nat)
    (fs : FS ArtifactName) (base ext : String) (payloads : List (List Nat)) :
    _write_chunks h (_write_chunks h fs base ext payloads) base ext payloads
      = _write_chunks h fs base ext payloads := by
  unfold _write_chunks
  simp only
  apply splittersWriteChunksGo_noop
  intro k p hk
  exact splittersWriteChunksGo_hash h base ext _ _ fs 1 k p hk

/-! ## The fan-out orchestrator (src/artifact_fanout.py, `fan_out_artifacts`)

Stage skeleton of the orchestrator.  The aggregate HTML/Markdown payloads are
resolved from the arguments or, when an argument is `None`, from the on-disk
aggregate files; if either stays unresolved a warning is printed and the
function returns before any stage.  Each stage (text, JSON, PDF — in that
order) runs iff `overwrite` is true or its aggregate artifact is missing.
Running a stage (re)creates its aggregate, except that the PDF aggregate only
appears when `render_pdf_from_html` succeeds, which the flag `pdfRenderOk`
models.  Stage-internal writes are abstracted into the existence flags and
the emitted run/skip/warn actions; the initial `mkdir(parents=True,
exist_ok=True)` calls touch only directories, not artifact files. -/

inductive FanAction where
  | warnMissing
  | runText
  | skipText
  | runJson
  | skipJson
  | runPdf
  | skipPdf
deriving DecidableEq

structure FanOutState where
  diskHtmlAgg : Option (List Char)
  diskMdAgg : Option (List Char)
  textAggExists : Bool
  jsonAggExists : Bool
  pdfAggExists : Bool
deriving DecidableEq

def fan_out_artifacts (overwrite pdfRenderOk : Bool)
    (aggregateHtmlPayload aggregateMarkdownPayload : Option (List Char))
    (fs : FanOutState) : FanOutState × List FanAction :=
  let htmlPayload := match aggregateHtmlPayload with
    | some p => some p
    | none => fs.diskHtmlAgg
  let mdPayload := match aggregateMarkdownPayload with
    | some p => some p
    | none => fs.diskMdAgg
  match htmlPayload, mdPayload with
  | none, _ => (fs, [FanAction.warnMissing])
  | some _, none => (fs, [FanAction.warnMissing])
  | some _, some _ =>
      let step1 :=
        if overwrite || !fs.textAggExists then
          ({ fs with textAggExists := true }, [FanAction.runText])
        else (fs, [FanAction.skipText])
      let step2 :=
        if overwrite || !step1.1.jsonAggExists then
          ({ step1.1 with jsonAggExists := true }, [FanAction.runJson])
        else (step1.1, [FanAction.skipJson])
      let step3 :=
        if overwrite || !step2.1.pdfAggExists then
          ({ step2.1 with pdfAggExists := pdfRenderOk }, [FanAction.runPdf])
        else (step2.1, [FanAction.skipPdf])
      (step3.1, step1.2 ++ step2.2 ++ step3.2)

/-- C5: when either aggregate payload is unresolvable (not passed in and not
on disk), the orchestrator emits only the warning and leaves the state — and
hence every file — untouched: no stage runs, nothing is written. -/
theorem fan_out_artifacts_aborts_when_unresolvable
    (overwrite pdfRenderOk : Bool)
    (htmlPayload mdPayload : Option (List Char)) (fs : FanOutState)
    (h : (htmlPayload = none ∧ fs.diskHtmlAgg = none) ∨
      (mdPayload = none ∧ fs.diskMdAgg = none)) :
    fan_out_artifacts overwrite pdfRenderOk htmlPayload mdPayload fs
      = (fs, [FanAction.warnMissing]) := by
  rcases h with ⟨h1, h2⟩ | ⟨h1, h2⟩
  · subst h1
    unfold fan_out_artifacts
    rw [h2]
  · subst h1
    unfold fan_out_artifacts
    rw [h2]
    cases htmlPayload with
    | none => cases hfs : fs.diskHtmlAgg <;> rfl
    | some p => rfl

/-- Witness for C5: no HTML payload anywhere, Markdown passed in. -/
theorem fan_out_artifacts_aborts_when_unresolvable_witness :
    fan_out_artifacts false true none (some ['m'])
        ⟨none, none, false, false, false⟩
      = (⟨none, none, false, false, false⟩, [FanAction.warnMissing]) :=
  fan_out_artifacts_aborts_when_unresolvable false true none (some ['m'])
    ⟨none, none, false, false, false⟩ (Or.inl ⟨rfl, rfl⟩)

/-- C6: with `overwrite = false` and resolvable payloads, every stage whose
aggregate artifact exists is skipped; in particular, when the text, JSON and
PDF aggregates all exist the orchestrator only reports the three skips and
leaves the state untouched, so a repeated call does exactly the same —
zero writes. -/
theorem fan_out_artifacts_skips_existing (pdfRenderOk : Bool)
    (htmlPayload mdPayload : Option (List Char)) (fs : FanOutState)
    (hres : (htmlPayload ≠ none ∨ fs.diskHtmlAgg ≠ none) ∧
      (mdPayload ≠ none ∨ fs.diskMdAgg ≠ none)) :
    ((fan_out_artifacts false pdfRenderOk htmlPayload mdPayload fs).2
        = (if fs.textAggExists then [FanAction.skipText]
            else [FanAction.runText])
          ++ (if fs.jsonAggExists then [FanAction.skipJson]
            else [FanAction.runJson])
          ++ (if fs.pdfAggExists then [FanAction.skipPdf]
            else [FanAction.runPdf])) ∧
      (fs.textAggExists = true → fs.jsonAggExists = true →
        fs.pdfAggExists = true →
        fan_out_artifacts false pdfRenderOk htmlPayload mdPayload fs
            = (fs, [FanAction.skipText, FanAction.skipJson, FanAction.skipPdf])
          ∧ fan_out_artifacts false pdfRenderOk htmlPayload mdPayload
              (fan_out_artifacts false pdfRenderOk htmlPayload mdPayload fs).1
            = (fs, [FanAction.skipText, FanAction.skipJson,
                FanAction.skipPdf])) := by
  obtain ⟨hH, hM⟩ := hres
  obtain ⟨hp, hhp⟩ : ∃ p, (match htmlPayload with
      | some p => some p
      | none => fs.diskHtmlAgg) = some p := by
    cases htmlPayload with
    | some p => exact ⟨p, rfl⟩
    | none =>
        cases hd : fs.diskHtmlAgg with
        | some p => exact ⟨p, rfl⟩
        | none => simp [hd] at hH
  obtain ⟨q, hhq⟩ : ∃ q, (match mdPayload with
      | some q => some q
      | none => fs.diskMdAgg) = some q := by
    cases mdPayload with
    | some q => exact ⟨q, rfl⟩
    | none =>
        cases hd : fs.diskMdAgg with
        | some q => exact ⟨q, rfl⟩
        | none => simp [hd] at hM
  constructor
  · unfold fan_out_artifacts
    rw [hhp, hhq]
    cases ht : fs.textAggExists <;> cases hj : fs.jsonAggExists <;>
      cases hpd : fs.pdfAggExists <;> simp [ht, hj, hpd]
  · intro ht hj hpd
    have hfix : fan_out_artifacts false pdfRenderOk htmlPayload mdPayload fs
        = (fs, [FanAction.skipText, FanAction.skipJson, FanAction.skipPdf]) := by
      unfold fan_out_artifacts
      rw [hhp, hhq]
      simp [ht, hj, hpd]
    refine ⟨hfix, ?_⟩
    rw [hfix]
    exact hfix

/-- Witness for C6: all three aggregates present, payloads passed in. -/
theorem fan_out_artifacts_skips_existing_witness :
    fan_out_artifacts false true (some ['h']) (some ['m'])
        ⟨none, none, true, true, true⟩
      = (⟨none, none, true, true, true⟩,
          [FanAction.skipText, FanAction.skipJson, FanAction.skipPdf]) :=
  ((fan_out_artifacts_skips_existing true (some ['h']) (some ['m'])
      ⟨none, none, true, true, true⟩
      ⟨Or.inl (by simp), Or.inl (by simp)⟩).2 rfl rfl rfl).1

/-! ## `parse_chunk_indices` (src/artifact_fanout.py)

`CHUNK_NAME_RE = re.compile(r"_part_(\d+)_of_(\d+)\.")` and
`parse_chunk_indices` returns the two matched integers of the leftmost match
under `re.search`, or the sentinel `(0, 0)` when there is no match.  In this
pattern each `\d+` is followed by a non-digit literal, so greedy maximal
munch (`takeWhile isDigit`) is exactly the regex behaviour; `re.search` tries
successive start positions from the left, which `searchChunk` mirrors. -/

def partLit : List Char := ['_', 'p', 'a', 'r', 't', '_']

def ofLit : List Char := ['_', 'o', 'f', '_']

/-- Strip an expected literal from the front, or fail. -/
def dropLit : List Char → List Char → Option (List Char)
  | [], s => some s
  | _ :: _, [] => none
  | l :: ls, c :: cs => if c = l then dropLit ls cs else none

def digitVal (c : Char) : Nat := c.toNat - 48

/-- The integer denoted by a run of decimal digit characters (`int(...)`). -/
def digitsVal (ds : List Char) : Nat :=
  ds.foldl (fun a c => 10 * a + digitVal c) 0

/-- Match `_part_(\d+)_of_(\d+)\.` at the start of `s`, returning the two
captured integers. -/
def matchChunkAt (s : List Char) : Option (Nat × Nat) :=
  match dropLit partLit s with
  | none => none
  | some s1 =>
      let d1 := s1.takeWhile Char.isDigit
      if d1 = [] then none
      else
        match dropLit ofLit (s1.dropWhile Char.isDigit) with
        | none => none
        | some s3 =>
            let d2 := s3.takeWhile Char.isDigit
            if d2 = [] then none
            else
              match s3.dropWhile Char.isDigit with
              | '.' :: _ => some (digitsVal d1, digitsVal d2)
              | _ => none

/-- `re.search`: try the pattern at each start position, leftmost first. -/
def searchChunk : List Char → Option (Nat × Nat)
  | [] => none
  | c :: cs =>
      match matchChunkAt (c :: cs) with
      | some r => some r
      | none => searchChunk cs

/-- `parse_chunk_indices(name)`: the leftmost match, or the `(0, 0)`
sentinel. -/
def parse_chunk_indices (name : List Char) : Nat × Nat :=
  (searchChunk name).getD (0, 0)

/-- Decimal digits of `n`, most significant first, onto `acc` (the decimal
rendering a Python f-string produces). -/
def natDigitsGo (n : Nat) (acc : List Char) : List Char :=
  if n < 10 then Char.ofNat (48 + n) :: acc
  else natDigitsGo (n / 10) (Char.ofNat (48 + n % 10) :: acc)
termination_by n
decreasing_by exact Nat.div_lt_self (by omega) (by omega)

def natDigits (n : Nat) : List Char := natDigitsGo n []

/-- The canonical chunk filename
`f"{base_name}_part_{index}_of_{total}{extension}"` shared by `write_chunks`
(src/artifacts/chunking.py) and `_write_chunks`
(src/pipelines/common/splitters.py). -/
def chunkFileName (base : List Char) (i n : Nat) (ext : List Char) :
    List Char :=
  base ++ partLit ++ natDigits i ++ ofLit ++ natDigits n ++ ext

/-! ### Decimal rendering round-trips through `digitsVal` -/

theorem digitsVal_shift (ds : List Char) :
    ∀ a : Nat, ds.foldl (fun a c => 10 * a + digitVal c) a
      = a * 10 ^ ds.length + digitsVal ds := by
  induction ds with
  | nil => intro a; simp [digitsVal]
  | cons c ds ih =>
      intro a
      rw [List.foldl_cons]
      rw [ih (10 * a + digitVal c)]
      unfold digitsVal
      rw [List.foldl_cons]
      rw [ih (10 * 0 + digitVal c)]
      simp only [digitsVal, List.length_cons, pow_succ]
      ring

theorem digitsVal_cons (c : Char) (ds : List Char) :
    digitsVal (c :: ds) = digitVal c * 10 ^ ds.length + digitsVal ds := by
  unfold digitsVal
  rw [List.foldl_cons, digitsVal_shift]
  simp [digitsVal]

theorem digitVal_ofNat : ∀ k, k < 10 → digitVal (Char.ofNat (48 + k)) = k := by
  decide

theorem isDigit_ofNat : ∀ k, k < 10 → (Char.ofNat (48 + k)).isDigit = true := by
  decide

theorem natDigitsGo_spec (n : Nat) :
    ∀ acc, digitsVal (natDigitsGo n acc)
        = n * 10 ^ acc.length + digitsVal acc ∧
      natDigitsGo n acc ≠ [] ∧
      ∀ c ∈ natDigitsGo n acc, c.isDigit = true ∨ c ∈ acc := by
  induction n using Nat.strong_induction_on with
  | _ n ih =>
      intro acc
      rw [natDigitsGo]
      by_cases hn : n < 10
      · rw [if_pos hn]
        refine ⟨?_, by simp, ?_⟩
        · rw [digitsVal_cons, digitVal_ofNat n hn]
        · intro c hc
          rcases List.mem_cons.mp hc with hh | ht
          · subst hh; exact Or.inl (isDigit_ofNat n hn)
          · exact Or.inr ht
      · rw [if_neg hn]
        have hlt : n / 10 < n := Nat.div_lt_self (by omega) (by omega)
        obtain ⟨h1, h2, h3⟩ := ih (n / 10) hlt (Char.ofNat (48 + n % 10) :: acc)
        refine ⟨?_, h2, ?_⟩
        · rw [h1, digitsVal_cons, digitVal_ofNat (n % 10) (by omega)]
          simp only [List.length_cons]
          have : n / 10 * 10 ^ (acc.length + 1)
              = (n / 10 * 10) * 10 ^ acc.length := by ring
          rw [this]
          have hmod : n / 10 * 10 * 10 ^ acc.length + (n % 10 * 10 ^ acc.length
              + digitsVal acc) = (n / 10 * 10 + n % 10) * 10 ^ acc.length
              + digitsVal acc := by ring
          rw [hmod]
          have hn10 : n / 10 * 10 + n % 10 = n := by omega
          rw [hn10]
        · intro c hc
          rcases h3 c hc with hd | hm
          · exact Or.inl hd
          · rcases List.mem_cons.mp hm with hh | ht
            · subst hh; exact Or.inl (isDigit_ofNat (n % 10) (by omega))
            · exact Or.inr ht

/-! ### Maximal-munch digit runs and literal stripping -/

theorem takeWhile_dropWhile_append {α : Type} (p : α → Bool) :
    ∀ (ds : List α) (e : α) (es : List α), (∀ c ∈ ds, p c = true) →
      p e = false →
      (ds ++ e :: es).takeWhile p = ds ∧
        (ds ++ e :: es).dropWhile p = e :: es := by
  intro ds
  induction ds with
  | nil =>
      intro e es _ hpe
      simp [List.takeWhile, List.dropWhile, hpe]
  | cons d ds ih =>
      intro e es hall hpe
      have hpd : p d = true := hall d (by simp)
      obtain ⟨h1, h2⟩ := ih e es (fun c hc => hall c (by simp [hc])) hpe
      constructor
      · simp only [List.cons_append, List.takeWhile_cons, hpd, if_true]
        rw [h1]
      · simp only [List.cons_append, List.dropWhile_cons, hpd, if_true]
        rw [h2]

theorem dropLit_append (lit : List Char) :
    ∀ s, dropLit lit (lit ++ s) = some s := by
  induction lit with
  | nil => intro s; rfl
  | cons l ls ih =>
      intro s
      simp only [List.cons_append, dropLit, if_pos rfl]
      exact ih s

/-- The pattern matches the canonical suffix and captures `(i, n)`. -/
theorem matchChunkAt_canonical (i n : Nat) (rest : List Char) :
    matchChunkAt (partLit ++ natDigits i ++ ofLit ++ natDigits n
        ++ '.' :: rest) = some (i, n) := by
  obtain ⟨hiv, hine, hidig⟩ := natDigitsGo_spec i []
  obtain ⟨hnv, hnne, hndig⟩ := natDigitsGo_spec n []
  have hiv' : digitsVal (natDigits i) = i := by
    simpa [digitsVal] using hiv
  have hnv' : digitsVal (natDigits n) = n := by
    simpa [digitsVal] using hnv
  have hidig' : ∀ c ∈ natDigits i, Char.isDigit c = true := by
    intro c hc
    rcases hidig c hc with h | h
    · exact h
    · simp at h
  have hndig' : ∀ c ∈ natDigits n, Char.isDigit c = true := by
    intro c hc
    rcases hndig c hc with h | h
    · exact h
    · simp at h
  have hine' : natDigits i ≠ [] := hine
  have hnne' : natDigits n ≠ [] := hnne
  unfold matchChunkAt
  have hassoc : partLit ++ natDigits i ++ ofLit ++ natDigits n ++ '.' :: rest
      = partLit ++ (natDigits i ++ (ofLit ++ (natDigits n ++ '.' :: rest))) := by
    simp [List.append_assoc]
  rw [hassoc, dropLit_append]
  have hofhead : ofLit ++ (natDigits n ++ '.' :: rest)
      = '_' :: (['o', 'f', '_'] ++ (natDigits n ++ '.' :: rest)) := by rfl
  have hu : Char.isDigit '_' = false := by decide
  obtain ⟨htake1, hdrop1⟩ := takeWhile_dropWhile_append Char.isDigit
    (natDigits i) '_' (['o', 'f', '_'] ++ (natDigits n ++ '.' :: rest))
    hidig' hu
  rw [hofhead]
  simp only [htake1, hdrop1]
  rw [if_neg hine']
  have hof2 : ('_' :: (['o', 'f', '_'] ++ (natDigits n ++ '.' :: rest)))
      = ofLit ++ (natDigits n ++ '.' :: rest) := by rfl
  rw [hof2, dropLit_append]
  have hdot : Char.isDigit '.' = false := by decide
  obtain ⟨htake2, hdrop2⟩ := takeWhile_dropWhile_append Char.isDigit
    (natDigits n) '.' rest hndig' hdot
  simp only [htake2, hdrop2]
  rw [if_neg hnne']
  rw [hiv', hnv']

/-- `re.search` skips a region with no match. -/
theorem searchChunk_skip (t : List Char) :
    ∀ s : List Char,
      (∀ p, p < s.length → matchChunkAt ((s ++ t).drop p) = none) →
      searchChunk (s ++ t) = searchChunk t := by
  intro s
  induction s with
  | nil => intro _; rfl
  | cons c cs ih =>
      intro hnone
      have h0 : matchChunkAt (c :: (cs ++ t)) = none := by
        have := hnone 0 (by simp)
        simpa using this
      rw [List.cons_append, searchChunk, h0]
      exact ih (fun p hp => by
        have := hnone (p + 1) (by simp; omega)
        simpa using this)

/-- If the pattern matches at no position at all, the search fails. -/
theorem searchChunk_none :
    ∀ s : List Char, (∀ p, matchChunkAt (s.drop p) = none) →
      searchChunk s = none := by
  intro s
  induction s with
  | nil => intro _; rfl
  | cons c cs ih =>
      intro hnone
      have h0 : matchChunkAt (c :: cs) = none := by
        have := hnone 0
        simpa using this
      rw [searchChunk, h0]
      exact ih (fun p => by
        have := hnone (p + 1)
        simpa using this)

/-- C7: chunk filenames round-trip.  For `1 ≤ i ≤ n`, parsing the canonical
filename `{base}_part_{i}_of_{n}{ext}` recovers `(i, n)` — provided the
extension starts with the dot the naming scheme always supplies and the
pattern does not already match inside `base` (`re.search` returns the
leftmost match, so a base name that itself contains `_part_{j}_of_{k}.`
would win).  A name in which the pattern matches nowhere parses to the
`(0, 0)` sentinel rather than an error. -/
theorem parse_chunk_indices_roundtrip (base : List Char) (i n : Nat)
    (ext : List Char) (hi : 1 ≤ i) (hin : i ≤ n)
    (hext : ∃ r, ext = '.' :: r)
    (hbase : ∀ p, p < base.length →
      matchChunkAt ((chunkFileName base i n ext).drop p) = none) :
    parse_chunk_indices (chunkFileName base i n ext) = (i, n) ∧
      ∀ s : List Char, (∀ p, matchChunkAt (s.drop p) = none) →
        parse_chunk_indices s = (0, 0) := by
  obtain ⟨r, hr⟩ := hext
  constructor
  · have hname : chunkFileName base i n ext
        = base ++ (partLit ++ natDigits i ++ ofLit ++ natDigits n
            ++ '.' :: r) := by
      unfold chunkFileName
      rw [hr]
      simp [List.append_assoc]
    unfold parse_chunk_indices
    rw [hname]
    rw [searchChunk_skip _ base (fun p hp => by
      have := hbase p hp
      rw [hname] at this
      exact this)]
    have hmatch := matchChunkAt_canonical i n r
    have htail : partLit ++ natDigits i ++ ofLit ++ natDigits n ++ '.' :: r
        = '_' :: (['p', 'a', 'r', 't', '_'] ++ natDigits i ++ ofLit
            ++ natDigits n ++ '.' :: r) := by
      simp [partLit]
    rw [htail] at hmatch ⊢
    rw [searchChunk, hmatch]
    rfl
  · intro s hs
    unfold parse_chunk_indices
    rw [searchChunk_none s hs]
    rfl

/-- Witness for C7 with `base = "rc"`, `i = 2`, `n = 3`, `ext = ".html"`. -/
theorem parse_chunk_indices_roundtrip_witness :
    parse_chunk_indices
        (chunkFileName ['r', 'c'] 2 3 ['.', 'h', 't', 'm', 'l']) = (2, 3) :=
  (parse_chunk_indices_roundtrip ['r', 'c'] 2 3 ['.', 'h', 't', 'm', 'l']
    (by decide) (by decide) ⟨['h', 't', 'm', 'l'], rfl⟩ (by decide)).1

/-! ## The other splitters (src/pipelines/common/splitters.py) -/

/-- The window loop of `_split_text`, with fuel. -/
def splitTextGo (payload : List Char) (maxChars : Nat) :
    Nat → Nat → List (List Char)
  | 0, _ => []
  | fuel + 1, cursor =>
      if cursor < payload.length then
        (payload.drop cursor).take maxChars ::
          splitTextGo payload maxChars fuel (cursor + maxChars)
      else []

/-- `_split_text(payload, max_chars)`: a non-positive limit or a payload that
already fits yields `[payload]`; otherwise plain character windows. -/
def _split_text (payload : List Char) (maxChars : Nat) : List (List Char) :=
  if maxChars = 0 ∨ payload.length ≤ maxChars then [payload]
  else splitTextGo payload maxChars payload.length 0

/-- The item-window loop of `split_json`, with fuel.  `encSize` abstracts
`len(json.dumps(subset, ensure_ascii=False).encode("utf-8"))`; the Python
`if max_bytes:` truthiness test makes the byte ceiling inert when it is
absent or zero. -/
def splitJsonGo {α : Type} (items : List α) (maxItems : Nat)
    (maxBytes : Option Nat) (encSize : List α → Nat) :
    Nat → Nat → List (List α)
  | 0, _ => []
  | fuel + 1, cursor =>
      if cursor < items.length then
        let subset := (items.drop cursor).take maxItems
        let cursor1 := cursor + maxItems
        match maxBytes with
        | some mb =>
            if mb ≠ 0 ∧ encSize subset > mb ∧ subset.length > 1 then
              let half := max 1 (subset.length / 2)
              subset.take half ::
                splitJsonGo items maxItems maxBytes encSize fuel
                  (cursor1 - (subset.length - half))
            else
              subset ::
                splitJsonGo items maxItems maxBytes encSize fuel cursor1
        | none =>
            subset :: splitJsonGo items maxItems maxBytes encSize fuel cursor1
      else []

/-- The chunk lists `split_json` passes to `_write_chunks`:
`max_items` defaults to `len(items)`, then the window loop runs. -/
def split_json_chunks {α : Type} (items : List α) (maxItemsOpt : Option Nat)
    (maxBytes : Option Nat) (encSize : List α → Nat) : List (List α) :=
  splitJsonGo items (maxItemsOpt.getD items.length) maxBytes encSize
    (items.length + 1) 0

/-- The page-window loop of `split_pdf`
(`for start in range(0, total_pages, max_pages)`), with fuel. -/
def pdfWindowsGo {α : Type} (pages : List α) (maxPages : Nat) :
    Nat → Nat → List (List α)
  | 0, _ => []
  | fuel + 1, start =>
      if start < pages.length then
        (pages.drop start).take maxPages ::
          pdfWindowsGo pages maxPages fuel (start + maxPages)
      else []

/-- The chunk payloads `split_pdf` passes to `_write_chunks`: a PDF with zero
pages yields the single empty payload `[b""]`, otherwise one chunk per page
window (a chunk is modelled by the list of pages it carries). -/
def split_pdf_chunks {α : Type} (pages : List α) (maxPages : Nat) :
    List (List α) :=
  if pages.length = 0 then [[]]
  else pdfWindowsGo pages maxPages pages.length 0

/-! ## UTF-8 and `_split_by_bytes` (src/pipelines/common/splitters.py)

`Char` is a Unicode scalar value, so `utf8EncodeChar` is exactly Python's
`str.encode("utf-8")` per character.  `utf8Decode` is the strict UTF-8
decoder (`bytes.decode("utf-8")`): continuation bytes must be `80..BF`,
overlong forms, surrogates and values above `U+10FFFF` are rejected —
mirrored in the lead-byte/first-continuation constraints below.
`latin1Decode` is `bytes.decode("latin-1", "ignore")`, which maps every byte
`b` to `U+00b` and can never fail. -/

def utf8EncodeChar (c : Char) : List Nat :=
  let n := c.toNat
  if n < 128 then [n]
  else if n < 2048 then [192 + n / 64, 128 + n % 64]
  else if n < 65536 then
    [224 + n / 4096, 128 + n / 64 % 64, 128 + n % 64]
  else
    [240 + n / 262144, 128 + n / 4096 % 64, 128 + n / 64 % 64, 128 + n % 64]

def utf8Encode (s : List Char) : List Nat :=
  (s.map utf8EncodeChar).flatten

/-- Is `b` a UTF-8 continuation byte (`80..BF`)? -/
def isCont (b : Nat) : Bool := 128 ≤ b ∧ b ≤ 191

/-- Decode one scalar from the front: the strict lead-byte dispatch. -/
def decodeOne : List Nat → Option (Char × List Nat)
  | [] => none
  | b0 :: rest =>
      if b0 < 128 then some (Char.ofNat b0, rest)
      else if 194 ≤ b0 ∧ b0 ≤ 223 then
        match rest with
        | b1 :: rest1 =>
            if isCont b1 then
              some (Char.ofNat ((b0 - 192) * 64 + (b1 - 128)), rest1)
            else none
        | [] => none
      else if 224 ≤ b0 ∧ b0 ≤ 239 then
        match rest with
        | b1 :: b2 :: rest2 =>
            if (isCont b1 ∧ isCont b2) ∧
                (b0 ≠ 224 ∨ 160 ≤ b1) ∧ (b0 ≠ 237 ∨ b1 ≤ 159) then
              some (Char.ofNat ((b0 - 224) * 4096 + (b1 - 128) * 64
                + (b2 - 128)), rest2)
            else none
        | _ => none
      else if 240 ≤ b0 ∧ b0 ≤ 244 then
        match rest with
        | b1 :: b2 :: b3 :: rest3 =>
            if (isCont b1 ∧ isCont b2 ∧ isCont b3) ∧
                (b0 ≠ 240 ∨ 144 ≤ b1) ∧ (b0 ≠ 244 ∨ b1 ≤ 143) then
              some (Char.ofNat ((b0 - 240) * 262144 + (b1 - 128) * 4096
                + (b2 - 128) * 64 + (b3 - 128)), rest3)
            else none
        | _ => none
      else none

def utf8DecodeGo : Nat → List Nat → Option (List Char)
  | _, [] => some []
  | 0, _ :: _ => none
  | fuel + 1, b :: bs =>
      match decodeOne (b :: bs) with
      | none => none
      | some (c, rest) => (utf8DecodeGo fuel rest).map (fun cs => c :: cs)

/-- Strict UTF-8 decoding of a whole byte list (fuel `length` always
suffices since `decodeOne` consumes at least one byte). -/
def utf8Decode (bs : List Nat) : Option (List Char) :=
  utf8DecodeGo bs.length bs

def latin1Decode (bs : List Nat) : List Char :=
  bs.map (fun b => Char.ofNat b)

/-- The shrink loop of `_split_by_bytes`: try
`encoded[cursor:cursor+slice_end]` for `slice_end = bound, …, 1`, returning
the first (largest) decodable cut. -/
def shrinkScan (enc : List Nat) (cursor : Nat) : Nat → Option (Nat × List Char)
  | 0 => none
  | k + 1 =>
      match utf8Decode ((enc.drop cursor).take (k + 1)) with
      | some chunk => some (k + 1, chunk)
      | none => shrinkScan enc cursor k

/-- The byte-window loop of `_split_by_bytes`, with fuel: decode the window
as-is, else shrink it to the largest decodable cut, else decode the window
with latin-1 and hard-advance by `limit`. -/
def splitBytesGo (enc : List Nat) (limit : Nat) :
    Nat → Nat → List (List Char)
  | 0, _ => []
  | fuel + 1, cursor =>
      if cursor < enc.length then
        let window := (enc.drop cursor).take limit
        match utf8Decode window with
        | some chunk =>
            chunk :: splitBytesGo enc limit fuel (cursor + window.length)
        | none =>
            match shrinkScan enc cursor limit with
            | some (k, chunk) =>
                chunk :: splitBytesGo enc limit fuel (cursor + k)
            | none =>
                latin1Decode window ::
                  splitBytesGo enc limit fuel (cursor + limit)
      else []

/-- `_split_by_bytes(payload, limit)`: a non-positive limit or a payload
whose encoding fits returns `[payload]`, otherwise the byte-window loop runs
on the UTF-8 encoding of the payload. -/
def _split_by_bytes (payload : List Char) (limit : Nat) : List (List Char) :=
  if limit = 0 then [payload]
  else if (utf8Encode payload).length ≤ limit then [payload]
  else splitBytesGo (utf8Encode payload) limit (utf8Encode payload).length 0

/-! ### The shrink loop finds the largest decodable cut -/

theorem shrinkScan_some {enc : List Nat} {cursor : Nat} :
    ∀ {bound k : Nat} {chunk : List Char},
      shrinkScan enc cursor bound = some (k, chunk) →
      1 ≤ k ∧ k ≤ bound ∧
        utf8Decode ((enc.drop cursor).take k) = some chunk ∧
        ∀ j, k < j → j ≤ bound →
          utf8Decode ((enc.drop cursor).take j) = none := by
  intro bound
  induction bound with
  | zero => intro k chunk h; simp [shrinkScan] at h
  | succ b ih =>
      intro k chunk h
      rw [shrinkScan] at h
      cases hdec : utf8Decode ((enc.drop cursor).take (b + 1)) with
      | some c =>
          rw [hdec] at h
          simp only [Option.some.injEq, Prod.mk.injEq] at h
          obtain ⟨hk, hc⟩ := h
          subst hk
          subst hc
          refine ⟨by omega, Nat.le_refl _, hdec, ?_⟩
          intro j hj1 hj2
          exact absurd hj2 (by omega)
      | none =>
          rw [hdec] at h
          obtain ⟨h1, h2, h3, h4⟩ := ih h
          refine ⟨h1, by omega, h3, ?_⟩
          intro j hj1 hj2
          by_cases hjb : j = b + 1
          · subst hjb; exact hdec
          · exact h4 j hj1 (by omega)

theorem shrinkScan_none {enc : List Nat} {cursor : Nat} :
    ∀ {bound : Nat}, shrinkScan enc cursor bound = none →
      ∀ j, 1 ≤ j → j ≤ bound →
        utf8Decode ((enc.drop cursor).take j) = none := by
  intro bound
  induction bound with
  | zero => intro _ j hj1 hj2; omega
  | succ b ih =>
      intro h j hj1 hj2
      rw [shrinkScan] at h
      cases hdec : utf8Decode ((enc.drop cursor).take (b + 1)) with
      | some c => rw [hdec] at h; exact absurd h (by simp)
      | none =>
          rw [hdec] at h
          by_cases hjb : j = b + 1
          · subst hjb; exact hdec
          · exact ih h j hj1 (by omega)

theorem splitBytesGo_fuel_indep (enc : List Nat) {limit : Nat}
    (hl : 1 ≤ limit) :
    ∀ fuel₁ fuel₂ cursor, enc.length ≤ cursor + fuel₁ →
      enc.length ≤ cursor + fuel₂ →
      splitBytesGo enc limit fuel₁ cursor
        = splitBytesGo enc limit fuel₂ cursor := by
  intro fuel₁
  induction fuel₁ with
  | zero =>
      intro fuel₂ cursor h1 h2
      have hc : ¬ cursor < enc.length := by omega
      cases fuel₂ with
      | zero => rfl
      | succ fuel₂ => rw [splitBytesGo, splitBytesGo, if_neg hc]
  | succ fuel₁ ih =>
      intro fuel₂ cursor h1 h2
      by_cases hc : cursor < enc.length
      · cases fuel₂ with
        | zero => omega
        | succ fuel₂ =>
            rw [splitBytesGo, splitBytesGo, if_pos hc, if_pos hc]
            have hwin : 1 ≤ ((enc.drop cursor).take limit).length := by
              rw [List.length_take, List.length_drop]
              omega
            cases hdec : utf8Decode ((enc.drop cursor).take limit) with
            | some chunk =>
                simp only [hdec]
                rw [ih fuel₂ (cursor + ((enc.drop cursor).take limit).length)
                  (by omega) (by omega)]
            | none =>
                cases hscan : shrinkScan enc cursor limit with
                | some kc =>
                    obtain ⟨k, ch⟩ := kc
                    obtain ⟨hk1, _, _, _⟩ := shrinkScan_some hscan
                    simp only [hdec, hscan]
                    rw [ih fuel₂ (cursor + k) (by omega) (by omega)]
                | none =>
                    simp only [hdec, hscan]
                    rw [ih fuel₂ (cursor + limit) (by omega) (by omega)]
      · cases fuel₂ with
        | zero => rw [splitBytesGo, splitBytesGo, if_neg hc]
        | succ fuel₂ => rw [splitBytesGo, splitBytesGo, if_neg hc, if_neg hc]

theorem splitBytesGo_mem (enc : List Nat) (limit : Nat) :
    ∀ fuel cursor chunk, chunk ∈ splitBytesGo enc limit fuel cursor →
      (∃ lo k, utf8Decode ((enc.drop lo).take k) = some chunk) ∨
        (∃ lo, shrinkScan enc lo limit = none ∧
          chunk = latin1Decode ((enc.drop lo).take limit)) := by
  intro fuel
  induction fuel with
  | zero => intro cursor chunk h; simp [splitBytesGo] at h
  | succ fuel ih =>
      intro cursor chunk h
      rw [splitBytesGo] at h
      by_cases hc : cursor < enc.length
      · rw [if_pos hc] at h
        cases hdec : utf8Decode ((enc.drop cursor).take limit) with
        | some c =>
            simp only [hdec] at h
            rcases List.mem_cons.mp h with hh | ht
            · subst hh; exact Or.inl ⟨cursor, limit, hdec⟩
            · exact ih _ chunk ht
        | none =>
            cases hscan : shrinkScan enc cursor limit with
            | some kc =>
                obtain ⟨k, ch⟩ := kc
                simp only [hdec, hscan] at h
                rcases List.mem_cons.mp h with hh | ht
                · subst hh
                  obtain ⟨_, _, h3, _⟩ := shrinkScan_some hscan
                  exact Or.inl ⟨cursor, k, h3⟩
                · exact ih _ chunk ht
            | none =>
                simp only [hdec, hscan] at h
                rcases List.mem_cons.mp h with hh | ht
                · subst hh; exact Or.inr ⟨cursor, hscan, rfl⟩
                · exact ih _ chunk ht
      · rw [if_neg hc] at h; simp at h

/-- C9: for every payload and positive byte limit, the byte-window splitter
is safe.  The loop terminates (its result is fuel-independent once the fuel
covers the encoding), the shrink loop returns the largest decodable cut
`k ≤ limit` (and every longer cut is undecodable), it returns `none` only
when no cut from `limit` down to one byte decodes, and every emitted chunk
is the whole payload, a strict UTF-8 decode of a slice of the encoding, or —
exactly when no decodable cut existed — the total latin-1 lossy decode of
the window, so the split never raises and never emits invalid decoded
output. -/
theorem split_by_bytes_safe (payload : List Char) (limit : Nat)
    (hl : 1 ≤ limit) :
    (∀ fuel₁ fuel₂ cursor,
        (utf8Encode payload).length ≤ cursor + fuel₁ →
        (utf8Encode payload).length ≤ cursor + fuel₂ →
        splitBytesGo (utf8Encode payload) limit fuel₁ cursor
          = splitBytesGo (utf8Encode payload) limit fuel₂ cursor) ∧
      (∀ cursor k chunk,
        shrinkScan (utf8Encode payload) cursor limit = some (k, chunk) →
        1 ≤ k ∧ k ≤ limit ∧
          utf8Decode (((utf8Encode payload).drop cursor).take k)
            = some chunk ∧
          ∀ j, k < j → j ≤ limit →
            utf8Decode (((utf8Encode payload).drop cursor).take j) = none) ∧
      (∀ cursor, shrinkScan (utf8Encode payload) cursor limit = none →
        ∀ j, 1 ≤ j → j ≤ limit →
          utf8Decode (((utf8Encode payload).drop cursor).take j) = none) ∧
      ∀ chunk ∈ _split_by_bytes payload limit,
        chunk = payload ∨
          (∃ lo k, utf8Decode (((utf8Encode payload).drop lo).take k)
            = some chunk) ∨
          (∃ lo, shrinkScan (utf8Encode payload) lo limit = none ∧
            chunk = latin1Decode (((utf8Encode payload).drop lo).take limit)) := by
  refine ⟨fun fuel₁ fuel₂ cursor h1 h2 =>
      splitBytesGo_fuel_indep (utf8Encode payload) hl fuel₁ fuel₂ cursor h1 h2,
    fun cursor k chunk h => shrinkScan_some h,
    fun cursor h => shrinkScan_none h, ?_⟩
  intro chunk hmem
  unfold _split_by_bytes at hmem
  rw [if_neg (by omega)] at hmem
  by_cases hfit : (utf8Encode payload).length ≤ limit
  · rw [if_pos hfit] at hmem
    simp at hmem
    exact Or.inl hmem
  · rw [if_neg hfit] at hmem
    exact Or.inr (splitBytesGo_mem (utf8Encode payload) limit _ 0 chunk hmem)

/-- Witness for C9: the 2-byte character `"é"` split with a 1-byte limit. -/
theorem split_by_bytes_safe_witness :
    splitBytesGo (utf8Encode ['é']) 1 5 0 = splitBytesGo (utf8Encode ['é']) 1 2 0 :=
  (split_by_bytes_safe ['é'] 1 (by decide)).1 5 2 0 (by decide) (by decide)

/-! ## C8: empty inputs yield exactly one empty chunk, `_of_0` never occurs -/

/-- Chunk files the `_write_chunks` loop touches carry a positive part index
and a positive total. -/
theorem _write_chunks_touched_names (h : List Nat → List Nat)
    (fs : FS ArtifactName) (base ext : String) (payloads : List (List Nat))
    (name : ArtifactName)
    (hch : (_write_chunks h fs base ext payloads).files name ≠ fs.files name) :
    1 ≤ name.part ∧ 1 ≤ name.total := by
  by_contra hcon
  apply hch
  unfold _write_chunks
  apply splittersWriteChunksGo_frame
  push_neg at hcon
  by_cases hp : 1 ≤ name.part
  · have ht : name.total = 0 := by omega
    refine Or.inr (Or.inr (Or.inl ?_))
    rw [ht]
    by_cases h0 : payloads.length = 0 <;> simp [h0] <;> omega
  · exact Or.inr (Or.inr (Or.inr (Or.inl (by omega))))

/-- C8: an empty input yields exactly one empty chunk for every splitter.
`split_text_on_newlines`, `_split_text` and `_split_by_bytes` return `[""]`
on empty text for every limit; `split_json` produces no item windows for an
empty item list and `split_pdf` produces the single empty payload for a
zero-page document, and in both cases `_write_chunks` pads an empty payload
list to the single empty chunk file `…_part_1_of_1…`; every chunk file that
loop ever writes has a positive part index and total, so a `_of_0` filename
never occurs. -/
theorem empty_input_single_empty_chunk :
    (∀ L, split_text_on_newlines [] L = [[]]) ∧
      (∀ L, _split_text [] L = [[]]) ∧
      (∀ L, _split_by_bytes [] L = [[]]) ∧
      (∀ (mi mb : Option Nat) (f : List Unit → Nat),
        split_json_chunks ([] : List Unit) mi mb f = []) ∧
      (∀ m, split_pdf_chunks ([] : List Unit) m = [[]]) ∧
      (∀ (h : List Nat → List Nat) (base ext : String),
        (_write_chunks h ⟨fun _ => none, 0⟩ base ext []).files
            ⟨base, 1, 1, ext⟩ = some ⟨[], 0⟩) ∧
      ∀ (h : List Nat → List Nat) (fs : FS ArtifactName) (base ext : String)
        (payloads : List (List Nat)) (name : ArtifactName),
        (_write_chunks h fs base ext payloads).files name ≠ fs.files name →
        1 ≤ name.part ∧ 1 ≤ name.total := by
  refine ⟨?_, ?_, ?_, ?_, ?_, ?_, ?_⟩
  · intro L; rfl
  · intro L
    unfold _split_text
    rw [if_pos (Or.inr (by simp))]
  · intro L
    unfold _split_by_bytes
    by_cases hL : L = 0
    · rw [if_pos hL]
    · rw [if_neg hL, if_pos (by simp [utf8Encode])]
  · intro mi mb f; rfl
  · intro m; rfl
  · intro h base ext
    show (splittersWriteChunksGo h base ext 1 ⟨fun _ => none, 0⟩ 1 [[]]).files
        ⟨base, 1, 1, ext⟩ = some ⟨[], 0⟩
    rw [splittersWriteChunksGo, splittersWriteChunksGo]
    unfold write_if_changed FS.writeFile
    simp
  · exact _write_chunks_touched_names

/-- Witness for C8: the write of the padded empty chunk from an empty store
changes the file `a_part_1_of_1.json`, which indeed has positive indices. -/
theorem empty_input_single_empty_chunk_witness :
    1 ≤ (⟨"a", 1, 1, ".json"⟩ : ArtifactName).part ∧
      1 ≤ (⟨"a", 1, 1, ".json"⟩ : ArtifactName).total :=
  empty_input_single_empty_chunk.2.2.2.2.2.2 (fun b => b)
    ⟨fun _ => none, 0⟩ "a" ".json" [] ⟨"a", 1, 1, ".json"⟩ (by decide)

/-! ## `generate_json_artifacts` (src/artifact_fanout.py): the chunk entries

The function computes `total_parts` as `len(raw_chunks) or 1` from
`fallback_html_chunks()`, where `raw_chunks` is
`split_text_on_newlines(aggregate_html, chunk_char_limit)`, then builds one
JSON chunk record per `part_index in range(1, total_parts + 1)` with fields
`part = part_index` and `total_parts = total_parts`, and stores the list as
the aggregate's `chunks` array.  The per-part `html`/`markdown`/`text`
payloads are resolved from on-disk chunk files with in-memory fallbacks —
filesystem reads that do not affect the numbering — so they are supplied by
content oracles indexed by the part number. -/

structure JsonChunk where
  part : Nat
  total_parts : Nat
  html : List Char
  markdown : List Char
  text : List Char

def generate_json_chunk_entries (aggregateHtml : List Char)
    (chunkCharLimit : Nat)
    (htmlFor markdownFor textFor : Nat → List Char) : List JsonChunk :=
  let raw := split_text_on_newlines aggregateHtml chunkCharLimit
  let totalParts := if raw.length = 0 then 1 else raw.length
  (List.range totalParts).map fun k =>
    { part := k + 1, total_parts := totalParts, html := htmlFor (k + 1),
      markdown := markdownFor (k + 1), text := textFor (k + 1) }

/-- C2: the JSON aggregate's `chunks` array has exactly one entry per part
of the HTML aggregate split at the same character limit, numbered
contiguously: entry `k` carries `part = k + 1` and `total_parts = N`. -/
theorem generate_json_chunk_entries_numbering (aggregateHtml : List Char)
    (chunkCharLimit : Nat) (htmlFor markdownFor textFor : Nat → List Char) :
    (generate_json_chunk_entries aggregateHtml chunkCharLimit htmlFor
        markdownFor textFor).length
      = (split_text_on_newlines aggregateHtml chunkCharLimit).length ∧
      ∀ k, k < (split_text_on_newlines aggregateHtml chunkCharLimit).length →
        ((generate_json_chunk_entries aggregateHtml chunkCharLimit htmlFor
            markdownFor textFor).get? k).map JsonChunk.part = some (k + 1) ∧
        ((generate_json_chunk_entries aggregateHtml chunkCharLimit htmlFor
            markdownFor textFor).get? k).map JsonChunk.total_parts
          = some (split_text_on_newlines aggregateHtml chunkCharLimit).length := by
  have hne := split_text_on_newlines_ne_nil aggregateHtml chunkCharLimit
  have hpos : (split_text_on_newlines aggregateHtml chunkCharLimit).length ≠ 0 := by
    intro h0
    exact hne (List.eq_nil_of_length_eq_zero h0)
  unfold generate_json_chunk_entries
  simp only [if_neg hpos]
  constructor
  · simp
  · intro k hk
    constructor
    · rw [List.get?_map, List.get?_range hk]
      rfl
    · rw [List.get?_map, List.get?_range hk]
      rfl

/-- Witness for C2 with the two-part split of `"a\nb"` at limit 2. -/
theorem generate_json_chunk_entries_numbering_witness :
    ((generate_json_chunk_entries ['a', '\n', 'b'] 2 (fun _ => [])
        (fun _ => []) (fun _ => [])).get? 1).map JsonChunk.part = some 2 :=
  ((generate_json_chunk_entries_numbering ['a', '\n', 'b'] 2 (fun _ => [])
      (fun _ => []) (fun _ => [])).2 1 (by decide)).1

end ContentExtractor
